import Mathlib

/-!
# Verification of the bitmask engine (`BitField` / `PermissionsBitField`)

Shallow embedding of the generic bitmask engine and its permission
specialization.  The deployed engine (`PermissionsBitField`) uses the
JavaScript `bigint` kind with `DefaultBit = 0n`; bigints are modelled as
unbounded `Int`.  JavaScript runtime behaviour is modelled explicitly:

* a computation that throws (`TypeError` when `undefined` is mixed into a
  bigint bitwise operation, `SyntaxError` from the `BigInt` string
  constructor) is `Except.error ()`;
* a value of `undefined` is `Option.none`;
* the host functions `isNaN` (string argument, i.e. `ToNumber` producing
  `NaN` or not) and `BigInt(string)` are modelled character by character
  following the ECMAScript string grammars (whitespace trimming, empty
  string, optional sign, decimal / hex / octal / binary forms, `Infinity`).
  JS numbers appearing as *inputs* are modelled at integer values only, and
  the IEEE rounding of non-integral numeric strings is not modelled (no
  claim depends on a non-integral value).  Prototype-chain lookup artifacts
  of the flag-registry object are not modelled.
-/

/-- Characters treated as whitespace by the ECMAScript `StrWhiteSpace`
production (modelled: the ASCII white space characters, NBSP and the BOM). -/
def jsWhite (c : Char) : Bool :=
  c = ' ' || c = '\t' || c = '\n' || c = '\r' || c = '\x0b' || c = '\x0c' ||
  c = '\xa0' || c = '﻿'

/-- Strip leading and trailing JS whitespace from a character list. -/
def trimWs (cs : List Char) : List Char :=
  ((cs.dropWhile jsWhite).reverse.dropWhile jsWhite).reverse

/-- Binary digit. -/
def isBinDig (c : Char) : Bool := c = '0' || c = '1'

/-- Octal digit. -/
def isOctDig (c : Char) : Bool := '0' ≤ c && c ≤ '7'

/-- Hexadecimal digit. -/
def isHexDig (c : Char) : Bool :=
  c.isDigit || ('a' ≤ c && c ≤ 'f') || ('A' ≤ c && c ≤ 'F')

/-- Numeric value of a hexadecimal digit character. -/
def hexVal (c : Char) : Nat :=
  if c.isDigit then c.toNat - 48
  else if 'a' ≤ c && c ≤ 'f' then c.toNat - 87
  else c.toNat - 55

/-- Numeric value of a decimal digit character. -/
def decDigVal (c : Char) : Nat := c.toNat - 48

/-- Accumulating radix evaluation of a digit sequence; `none` on the first
character that is not a digit of the radix. -/
def radixGo (base : Nat) (dig : Char → Bool) (val : Char → Nat) :
    Nat → List Char → Option Nat
  | acc, [] => some acc
  | acc, c :: r =>
    if dig c then radixGo base dig val (acc * base + val c) r else none

/-- Value of a non-empty all-digit character sequence in the given radix;
`none` when empty or when a non-digit occurs. -/
def radixVal (base : Nat) (dig : Char → Bool) (val : Char → Nat)
    (cs : List Char) : Option Nat :=
  if cs.isEmpty then none else radixGo base dig val 0 cs

/-- Decimal value of a non-empty all-digit character sequence. -/
def decVal (cs : List Char) : Option Nat :=
  radixVal 10 Char.isDigit decDigVal cs

/-- The ECMAScript `BigInt(string)` conversion (`StringIntegerLiteral`
grammar): whitespace is trimmed, the empty remainder denotes `0`, an
optional sign may precede decimal digits, and unsigned `0x`/`0o`/`0b`
radix forms are accepted; everything else (fractions, exponents,
`Infinity`) raises a `SyntaxError`, modelled as `none`. -/
def jsBigIntOfStr (s : String) : Option Int :=
  match trimWs s.toList with
  | [] => some 0
  | c :: r =>
    if c = '+' then (decVal r).map (fun m => (m : Int))
    else if c = '-' then (decVal r).map (fun m => -(m : Int))
    else if c = '0' then
      match r with
      | [] => some 0
      | t :: r2 =>
        if t = 'x' || t = 'X' then
          (radixVal 16 isHexDig hexVal r2).map (fun m => (m : Int))
        else if t = 'o' || t = 'O' then
          (radixVal 8 isOctDig decDigVal r2).map (fun m => (m : Int))
        else if t = 'b' || t = 'B' then
          (radixVal 2 isBinDig decDigVal r2).map (fun m => (m : Int))
        else (decVal (c :: r)).map (fun m => (m : Int))
    else (decVal (c :: r)).map (fun m => (m : Int))

/-- Recognizer for the exponent part of an ECMAScript `StrDecimalLiteral`
(empty, or `e`/`E`, an optional sign and at least one decimal digit). -/
def recExpPart : List Char → Bool
  | [] => true
  | c :: r =>
    (c = 'e' || c = 'E') &&
      (match r with
       | [] => false
       | c2 :: r2 =>
         if c2 = '+' || c2 = '-' then !r2.isEmpty && r2.all Char.isDigit
         else (c2 :: r2).all Char.isDigit)

/-- Recognizer for an unsigned ECMAScript decimal literal:
`digits [. digits] [exp]` or `. digits [exp]`, at least one digit. -/
def recUnsignedDec (cs : List Char) : Bool :=
  let ds1 := cs.takeWhile Char.isDigit
  match cs.dropWhile Char.isDigit with
  | [] => !ds1.isEmpty
  | c :: r1 =>
    if c = '.' then
      let ds2 := r1.takeWhile Char.isDigit
      (!ds1.isEmpty || !ds2.isEmpty) && recExpPart (r1.dropWhile Char.isDigit)
    else !ds1.isEmpty && recExpPart (c :: r1)

/-- An unsigned decimal literal or the literal `Infinity`. -/
def recDecOrInf (cs : List Char) : Bool :=
  cs = "Infinity".toList || recUnsignedDec cs

/-- Recognizer for the unsigned radix-prefixed integer literals
`0x…`, `0o…`, `0b…`. -/
def recRadix : List Char → Bool
  | c0 :: c1 :: r =>
    c0 = '0' &&
      (((c1 = 'x' || c1 = 'X') && !r.isEmpty && r.all isHexDig) ||
       ((c1 = 'o' || c1 = 'O') && !r.isEmpty && r.all isOctDig) ||
       ((c1 = 'b' || c1 = 'B') && !r.isEmpty && r.all isBinDig))
  | _ => false

/-- Whether `ToNumber` maps the string to a number other than `NaN`
(the guard used by the global `isNaN` on strings): after trimming,
the empty string, optionally signed decimal literals and `Infinity`,
and unsigned radix-prefixed forms are numeric. -/
def jsNumericStr (s : String) : Bool :=
  match trimWs s.toList with
  | [] => true
  | c :: r =>
    if c = '+' || c = '-' then recDecOrInf r
    else recRadix (c :: r) || recDecOrInf (c :: r)

/-- The host `isNaN` applied to a string: true when `ToNumber` yields `NaN`. -/
def jsIsNaNStr (s : String) : Bool := !jsNumericStr s

/-- The decimal digit character for `d < 10`. -/
def digitChar (d : Nat) : Char := Char.ofNat (48 + d)

/-- Fuel-driven most-significant-first decimal rendering (the fuel is an
upper bound on the number; division by ten strictly decreases, so the fuel
is never exhausted for `fuel ≥ n`). -/
def natDecimalGo : Nat → Nat → List Char → List Char
  | 0, _, acc => acc
  | fuel + 1, n, acc =>
    if n = 0 then acc
    else natDecimalGo fuel (n / 10) (digitChar (n % 10) :: acc)

/-- Decimal rendering of a natural number, as `BigInt.prototype.toString`
produces it for non-negative values. -/
def natDecimal (n : Nat) : String :=
  if n = 0 then "0" else ⟨natDecimalGo n n []⟩

/-- Decimal rendering of an integer, as `BigInt.prototype.toString`
produces it (a leading `-` for negative values, no suffix). -/
def intDecimal (n : Int) : String :=
  if n < 0 then "-" ++ natDecimal n.natAbs else natDecimal n.natAbs

/-- A JavaScript runtime value in the positions the engine inspects:
a bigint primitive, a number primitive (modelled at integer values),
a string, a `BitField` instance (wrapping its `bitfield` property, which
is `none` when that property is `undefined`), an array, or any other
value (`undefined`, `null`, booleans, plain objects, …). -/
inductive JSVal where
  | bigI (n : Int)
  | numI (n : Int)
  | str (s : String)
  | inst (bf : Option Int)
  | arr (xs : List JSVal)
  | other

/-- A `BitField` instance: the wrapped `bitfield` property (`none` models
`undefined`, stored when construction resolved nothing) and whether
`Object.freeze` has been applied. -/
structure BitField where
  bitfield : Option Int
  frozen : Bool
deriving DecidableEq

/-- JS `reduce((prev, p) => prev | p, 0n)` over already-resolved elements,
starting from the accumulator: folding `undefined` into a bigint `|`
raises a `TypeError`. -/
def BitField.orReduce : Int → List (Option Int) → Except Unit Int
  | acc, [] => .ok acc
  | _, none :: _ => .error ()
  | acc, some n :: rest => BitField.orReduce (Int.lor acc n) rest

mutual

/-- Embedding of `static resolve(bit)` of the bigint engine (`DefaultBit = 0n`), the
class-level flag registry passed as `flags`.  In order: a bigint `≥ 0n` is
returned unchanged; an instance yields its `bitfield`; an array is mapped
recursively and folded with `|` from `0n`; a string is converted with
`BigInt` when `!isNaN` holds and otherwise looked up in the registry;
everything else falls through to `return;` (`undefined`). -/
def BitField.resolve (flags : List (String × Int)) : JSVal → Except Unit (Option Int)
  | .bigI n => if 0 ≤ n then .ok (some n) else .ok none
  | .numI _ => .ok none
  | .str s =>
    if jsIsNaNStr s then
      match flags.lookup s with
      | some v => .ok (some v)
      | none => .ok none
    else
      match jsBigIntOfStr s with
      | some n => .ok (some n)
      | none => .error ()
  | .inst b => .ok b
  | .arr xs =>
    match BitField.resolveAll flags xs with
    | .error e => .error e
    | .ok rs =>
      match BitField.orReduce 0 rs with
      | .error e => .error e
      | .ok n => .ok (some n)
  | .other => .ok none

/-- Embedding of `bit.map(p => this.resolve(p))`: resolve every array element
(an exception from a recursive resolution propagates). -/
def BitField.resolveAll (flags : List (String × Int)) :
    List JSVal → Except Unit (List (Option Int))
  | [] => .ok []
  | x :: xs =>
    match BitField.resolve flags x, BitField.resolveAll flags xs with
    | .error e, _ => .error e
    | .ok _, .error e => .error e
    | .ok r, .ok rs => .ok (r :: rs)

end

/-- The constructor: `this.bitfield = this.constructor.resolve(bits)`;
an unresolvable input stores `undefined`, a new instance is not frozen. -/
def BitField.new (flags : List (String × Int)) (bits : JSVal) :
    Except Unit BitField :=
  match BitField.resolve flags bits with
  | .error e => .error e
  | .ok o => .ok ⟨o, false⟩

/-- Embedding of `has(bit)`: resolve, then `(this.bitfield & bit) === bit`; the bigint
`&` raises a `TypeError` when either side is `undefined`. -/
def BitField.has (flags : List (String × Int)) (b : BitField) (bit : JSVal) :
    Except Unit Bool :=
  match BitField.resolve flags bit with
  | .error e => .error e
  | .ok none => .error ()
  | .ok (some n) =>
    match b.bitfield with
    | none => .error ()
    | some bf => .ok (decide (Int.land bf n = n))

/-- Embedding of `any(bit)`: `(this.bitfield & resolve(bit)) !== DefaultBit`. -/
def BitField.any (flags : List (String × Int)) (b : BitField) (bit : JSVal) :
    Except Unit Bool :=
  match BitField.resolve flags bit with
  | .error e => .error e
  | .ok none => .error ()
  | .ok (some n) =>
    match b.bitfield with
    | none => .error ()
    | some bf => .ok (decide (Int.land bf n ≠ 0))

/-- Embedding of `equals(bit)`: `this.bitfield === resolve(bit)` (strict equality, no
bitwise operation, so `undefined === undefined` is `true`). -/
def BitField.equals (flags : List (String × Int)) (b : BitField) (bit : JSVal) :
    Except Unit Bool :=
  match BitField.resolve flags bit with
  | .error e => .error e
  | .ok r => .ok (b.bitfield == r)

/-- Embedding of `freeze()`: `Object.freeze(this)` marks the receiver immutable in place
and returns the receiver itself (not a copy). -/
def BitField.freeze (b : BitField) : BitField := { b with frozen := true }

/-- The accumulation loop of `add`/`remove`:
`for (const bit of bits) total |= this.constructor.resolve(bit);`
an unresolvable element makes the bigint `|=` raise a `TypeError`. -/
def BitField.orTotal (flags : List (String × Int)) :
    Int → List JSVal → Except Unit Int
  | total, [] => .ok total
  | total, bit :: rest =>
    match BitField.resolve flags bit with
    | .error e => .error e
    | .ok none => .error ()
    | .ok (some n) => BitField.orTotal flags (Int.lor total n) rest

/-- Outcome of a mutator call: the receiver's state after the call, the
state of the returned instance, and whether the returned instance is a
newly allocated object (a reference distinct from the receiver). -/
structure MutResult where
  receiver : BitField
  ret : BitField
  fresh : Bool
deriving DecidableEq

/-- Embedding of `add(...bits)`: accumulate the resolved bits, then either return
`new this.constructor(this.bitfield | total)` when the receiver is frozen
(leaving the receiver untouched) or mutate the receiver in place. -/
def BitField.add (flags : List (String × Int)) (b : BitField)
    (bits : List JSVal) : Except Unit MutResult :=
  match BitField.orTotal flags 0 bits with
  | .error e => .error e
  | .ok total =>
    match b.bitfield with
    | none => .error ()
    | some bf =>
      if b.frozen then
        match BitField.new flags (.bigI (Int.lor bf total)) with
        | .error e => .error e
        | .ok c => .ok ⟨b, c, true⟩
      else
        .ok ⟨{ b with bitfield := some (Int.lor bf total) },
             { b with bitfield := some (Int.lor bf total) }, false⟩

/-- Embedding of `remove(...bits)`: same shape as `add` with `this.bitfield & ~total`. -/
def BitField.remove (flags : List (String × Int)) (b : BitField)
    (bits : List JSVal) : Except Unit MutResult :=
  match BitField.orTotal flags 0 bits with
  | .error e => .error e
  | .ok total =>
    match b.bitfield with
    | none => .error ()
    | some bf =>
      if b.frozen then
        match BitField.new flags (.bigI (Int.land bf (Int.lnot total))) with
        | .error e => .error e
        | .ok c => .ok ⟨b, c, true⟩
      else
        .ok ⟨{ b with bitfield := some (Int.land bf (Int.lnot total)) },
             { b with bitfield := some (Int.land bf (Int.lnot total)) }, false⟩

/-- The generator `*[Symbol.iterator]()` materialized over a remaining
segment of `Object.keys(Flags)`: a name is yielded when `isNaN(name)` holds
(the reverse-numeric-lookup guard) and the generic `has(name)` is true; an
exception from `has` propagates out of the iteration. -/
def BitField.iterGo (flags : List (String × Int)) (b : BitField) :
    List (String × Int) → Except Unit (List String)
  | [] => .ok []
  | e :: rest =>
    if jsIsNaNStr e.1 then
      match BitField.has flags b (.str e.1) with
      | .error er => .error er
      | .ok true =>
        match BitField.iterGo flags b rest with
        | .error er => .error er
        | .ok names => .ok (e.1 :: names)
      | .ok false => BitField.iterGo flags b rest
    else BitField.iterGo flags b rest

/-- Embedding of `toArray()` of the generic engine: spread of the iterator over the full
registry, in declaration order. -/
def BitField.toArray (flags : List (String × Int)) (b : BitField) :
    Except Unit (List String) :=
  BitField.iterGo flags b flags

/-- Embedding of `missing(bits)` of the generic engine:
`new this.constructor(bits).remove(this).toArray()`.  (On a
`PermissionsBitField` receiver the temporary's `toArray` dispatches to the
override, which forwards `checkAdmin = false` and therefore coincides with
the generic enumeration; see `PermissionsBitField.toArray_eq_generic`.) -/
def BitField.missing (flags : List (String × Int)) (b : BitField)
    (bits : JSVal) : Except Unit (List String) :=
  match BitField.new flags bits with
  | .error e => .error e
  | .ok temp =>
    match BitField.remove flags temp [.inst b.bitfield] with
    | .error e => .error e
    | .ok res => BitField.toArray flags res.ret

/-- A scalar produced by `toJSON`: a native number or a string. -/
inductive JScalar where
  | num (n : Int)
  | str (s : String)
deriving DecidableEq

/-- Embedding of `toJSON()`: `typeof this.bitfield === 'number' ? this.bitfield :
this.bitfield.toString()`.  In the bigint engine a defined `bitfield` is a
bigint, so the first branch is never taken and the decimal string is
returned; an `undefined` bitfield raises a `TypeError` at `.toString()`. -/
def BitField.toJSON (b : BitField) : Except Unit JScalar :=
  match b.bitfield with
  | none => .error ()
  | some n => .ok (.str (intDecimal n))

/-- Embedding of `valueOf()`: the raw wrapped value. -/
def BitField.valueOf (b : BitField) : Option Int := b.bitfield

/-- Embedding of `PermissionsBitField.has(permission, checkAdmin = true)`:
`(checkAdmin && super.has(Administrator)) || super.has(permission)`;
`A` is the registry's administrator value and the `&&`/`||` short-circuit
evaluation order is preserved. -/
def PermissionsBitField.has (flags : List (String × Int)) (A : Int)
    (b : BitField) (perm : JSVal) (checkAdmin : Bool) : Except Unit Bool :=
  if checkAdmin then
    match BitField.has flags b (.bigI A) with
    | .error e => .error e
    | .ok true => .ok true
    | .ok false => BitField.has flags b perm
  else BitField.has flags b perm

/-- Embedding of `PermissionsBitField.any(permission, checkAdmin = true)`:
`(checkAdmin && super.has(Administrator)) || super.any(permission)`. -/
def PermissionsBitField.any (flags : List (String × Int)) (A : Int)
    (b : BitField) (perm : JSVal) (checkAdmin : Bool) : Except Unit Bool :=
  if checkAdmin then
    match BitField.has flags b (.bigI A) with
    | .error e => .error e
    | .ok true => .ok true
    | .ok false => BitField.any flags b perm
  else BitField.any flags b perm

/-- The iterator of a `PermissionsBitField` instance: the generic generator
body, but `this.has` dispatches to the override with the forwarded
`checkAdmin` argument. -/
def PermissionsBitField.iterGo (flags : List (String × Int)) (A : Int)
    (b : BitField) (checkAdmin : Bool) :
    List (String × Int) → Except Unit (List String)
  | [] => .ok []
  | e :: rest =>
    if jsIsNaNStr e.1 then
      match PermissionsBitField.has flags A b (.str e.1) checkAdmin with
      | .error er => .error er
      | .ok true =>
        match PermissionsBitField.iterGo flags A b checkAdmin rest with
        | .error er => .error er
        | .ok names => .ok (e.1 :: names)
      | .ok false => PermissionsBitField.iterGo flags A b checkAdmin rest
    else PermissionsBitField.iterGo flags A b checkAdmin rest

/-- Embedding of `PermissionsBitField.toArray()`: `super.toArray(false)` — the iterator
runs with the administrator short-circuit disabled. -/
def PermissionsBitField.toArray (flags : List (String × Int)) (A : Int)
    (b : BitField) : Except Unit (List String) :=
  PermissionsBitField.iterGo flags A b false flags

/-- Embedding of `PermissionsBitField.missing(bits, checkAdmin = true)`:
`checkAdmin && this.has(Administrator) ? [] : super.missing(bits)`
(`this.has` is the override, called with its default `checkAdmin = true`). -/
def PermissionsBitField.missing (flags : List (String × Int)) (A : Int)
    (b : BitField) (bits : JSVal) (checkAdmin : Bool) :
    Except Unit (List String) :=
  if checkAdmin then
    match PermissionsBitField.has flags A b (.bigI A) true with
    | .error e => .error e
    | .ok true => .ok []
    | .ok false => BitField.missing flags b bits
  else BitField.missing flags b bits

/-- Well-formedness of a flag registry as the specification describes it:
names are non-numeric (so the `isNaN` guards keep them and resolution finds
them by lookup), names are unique, lookup of each name returns its own
value, every value is a power of two, and no two names share a bit. -/
structure RegWF (flags : List (String × Int)) : Prop where
  names_nonnum : ∀ e ∈ flags, jsIsNaNStr e.1 = true
  names_nodup : (flags.map Prod.fst).Nodup
  lookup_self : ∀ e ∈ flags, flags.lookup e.1 = some e.2
  vals_pow2 : ∀ e ∈ flags, ∃ k : Nat, e.2 = 2 ^ k
  vals_nodup : (flags.map Prod.snd).Nodup

/-- Modelled from the spec: the permission flag registry
(`PermissionFlagsBits` of `discord-api-types/v10`) is an external table not
part of this repository's sources.  It is modelled with the values the
specification fixes in its scenario (`ViewChannel = 0x400`,
`SendMessages = 0x800`, `Administrator = 0x8`) together with the other
named bits at their documented positions; theorems that depend on the whole
table are stated over any `RegWF` registry instead. -/
def permFlags : List (String × Int) :=
  [("CreateInstantInvite", 1), ("KickMembers", 2), ("BanMembers", 4),
   ("Administrator", 8), ("ManageChannels", 16), ("ManageGuild", 32),
   ("AddReactions", 64), ("ViewAuditLog", 128), ("PrioritySpeaker", 256),
   ("Stream", 512), ("ViewChannel", 1024), ("SendMessages", 2048),
   ("MuteMembers", 4194304), ("MoveMembers", 16777216)]

/-- A string consisting only of decimal digits (and at least one), as the
specification's resolution case (4) reads. -/
def digitsOnly (s : String) : Bool :=
  !s.toList.isEmpty && s.toList.all Char.isDigit

mutual

/-- The resolution algorithm exactly as the specification words it, for the
refinement comparison: (1) a canonical-kind integer `≥` zero is returned
unchanged; (2) an instance yields its wrapped bitfield; (3) a sequence
yields the OR of recursively resolving each element, from zero; (4) a
string of only digits is parsed; (5) a string equal to a registry name
yields that entry's value; (6) anything else fails. -/
def resolveSpec (flags : List (String × Int)) : JSVal → Option Int
  | .bigI n => if 0 ≤ n then some n else none
  | .numI _ => none
  | .str s =>
    if digitsOnly s then (decVal s.toList).map (fun m => (m : Int))
    else flags.lookup s
  | .inst b => b
  | .arr xs => (resolveSpecAll flags xs).map (List.foldl Int.lor 0)
  | .other => none

/-- Element-wise resolution for the specification-worded algorithm. -/
def resolveSpecAll (flags : List (String × Int)) : List JSVal → Option (List Int)
  | [] => some []
  | x :: xs =>
    match resolveSpec flags x, resolveSpecAll flags xs with
    | some v, some vs => some (v :: vs)
    | _, _ => none

end

/-- Whether an integer is exactly representable in the engine's native
number kind (a JS double), i.e. lies in the safe-integer range. -/
def fitsNative (n : Int) : Bool := n.natAbs ≤ 9007199254740991

section Helpers

/-- Bigint `|` on non-negative operands is `Nat.lor`. -/
theorem int_lor_coe (a b : ℕ) : Int.lor (a : ℤ) (b : ℤ) = ((a ||| b : ℕ) : ℤ) := rfl

/-- Bigint `&` on non-negative operands is `Nat.land`. -/
theorem int_land_coe (a b : ℕ) : Int.land (a : ℤ) (b : ℤ) = ((a &&& b : ℕ) : ℤ) := rfl

/-- Bigint `a & ~b` on non-negative operands is `Nat.ldiff`. -/
theorem int_ldiff_coe (a b : ℕ) :
    Int.land (a : ℤ) (Int.lnot (b : ℤ)) = ((Nat.ldiff a b : ℕ) : ℤ) := rfl

theorem nat_zero_lor (n : ℕ) : Nat.lor 0 n = n := by
  refine Nat.eq_of_testBit_eq fun i => ?_
  show (0 ||| n).testBit i = n.testBit i
  simp [Nat.testBit_lor, Nat.zero_testBit]

theorem nat_ldiff_zero (n : ℕ) : Nat.ldiff n 0 = n := by
  refine Nat.eq_of_testBit_eq fun i => ?_
  simp [Nat.testBit_ldiff, Nat.zero_testBit]

/-- A computable form of `Nat.ldiff` (the kernel evaluates `&&&`/`^^^`). -/
theorem nat_ldiff_eq (a b : ℕ) : Nat.ldiff a b = a &&& (a ^^^ b) := by
  refine Nat.eq_of_testBit_eq fun i => ?_
  simp only [Nat.testBit_ldiff, Nat.testBit_land, Nat.testBit_xor]
  cases a.testBit i <;> cases b.testBit i <;> rfl

theorem int_zero_lor (x : ℤ) : Int.lor 0 x = x := by
  cases x with
  | ofNat n =>
    show ((Nat.lor 0 n : ℕ) : ℤ) = (n : ℤ)
    rw [nat_zero_lor]
  | negSucc n =>
    show Int.negSucc (Nat.ldiff n 0) = Int.negSucc n
    rw [nat_ldiff_zero]

theorem nat_lor_land_self (a b : ℕ) : (a ||| b) &&& b = b := by
  refine Nat.eq_of_testBit_eq fun i => ?_
  simp only [Nat.testBit_land, Nat.testBit_lor]
  cases a.testBit i <;> cases b.testBit i <;> rfl

theorem nat_land_pow2 (x : ℕ) (k : ℕ) :
    x &&& 2 ^ k = 2 ^ k ↔ x.testBit k = true := by
  constructor
  · intro h
    have := congrArg (fun y => y.testBit k) h
    simpa [Nat.testBit_land, Nat.testBit_two_pow_self] using this
  · intro h
    refine Nat.eq_of_testBit_eq fun i => ?_
    rcases eq_or_ne i k with rfl | hne
    · simp [Nat.testBit_land, Nat.testBit_two_pow_self, h]
    · simp [Nat.testBit_land, Nat.testBit_two_pow_of_ne (Ne.symm hne)]

theorem nat_ldiff_pow2 (v b k : ℕ) :
    Nat.ldiff v b &&& 2 ^ k = 2 ^ k ↔
      (v &&& 2 ^ k = 2 ^ k ∧ ¬(b &&& 2 ^ k = 2 ^ k)) := by
  rw [nat_land_pow2, nat_land_pow2, nat_land_pow2, Nat.testBit_ldiff]
  cases v.testBit k <;> cases b.testBit k <;> simp

theorem nat_pow2_land_pow2 (k j : ℕ) : 2 ^ k &&& 2 ^ j = 2 ^ j ↔ j = k := by
  rw [nat_land_pow2]
  constructor
  · intro h
    by_contra hne
    rw [Nat.testBit_two_pow_of_ne (Ne.symm hne)] at h
    exact Bool.false_ne_true h
  · rintro rfl
    exact Nat.testBit_two_pow_self

theorem nat_zero_land (n : ℕ) : 0 &&& n = 0 := by
  refine Nat.eq_of_testBit_eq fun i => ?_
  simp [Nat.testBit_land, Nat.zero_testBit]

end Helpers

section ResolveHelpers

/-- Mapping `resolve` over a list of well-formed elements. -/
theorem resolveAll_forall2 (flags : List (String × Int)) :
    ∀ {xs : List JSVal} {vs : List Int},
      List.Forall₂ (fun x v => BitField.resolve flags x = .ok (some v)) xs vs →
      BitField.resolveAll flags xs = .ok (vs.map some) := by
  intro xs vs h
  induction h with
  | nil => rfl
  | cons hx _ ih => simp [BitField.resolveAll, hx, ih]

/-- Folding defined elements with `|` from an accumulator. -/
theorem orReduce_somes : ∀ (vs : List Int) (acc : Int),
    BitField.orReduce acc (vs.map some) = .ok (vs.foldl Int.lor acc)
  | [], _ => rfl
  | v :: vs, acc => by
    simp only [List.map_cons, BitField.orReduce, List.foldl_cons]
    exact orReduce_somes vs (Int.lor acc v)

/-- The accumulation loop of `add`/`remove` over well-formed elements. -/
theorem orTotal_somes (flags : List (String × Int)) :
    ∀ {bits : List JSVal} {vs : List Int},
      List.Forall₂ (fun x v => BitField.resolve flags x = .ok (some v)) bits vs →
      ∀ acc, BitField.orTotal flags acc bits = .ok (vs.foldl Int.lor acc) := by
  intro bits vs h
  induction h with
  | nil => intro acc; rfl
  | cons hx _ ih =>
    intro acc
    simp only [BitField.orTotal, hx, List.foldl_cons]
    exact ih _

/-- The accumulation loop raises a `TypeError` as soon as it reaches an
element that resolved to `undefined`, regardless of preceding good
elements or of anything that follows. -/
theorem orTotal_bad (flags : List (String × Int)) {pre : List JSVal}
    {vs : List Int}
    (h : List.Forall₂ (fun x v => BitField.resolve flags x = .ok (some v)) pre vs)
    {bad : JSVal} (hbad : BitField.resolve flags bad = .ok none)
    (post : List JSVal) :
    ∀ acc, BitField.orTotal flags acc (pre ++ bad :: post) = .error () := by
  induction h with
  | nil =>
    intro acc
    simp [BitField.orTotal, hbad]
  | cons hx _ ih =>
    intro acc
    simp only [List.cons_append, BitField.orTotal, hx]
    exact ih _

/-- Unfolding of `has` on a registry name: it resolves through the registry lookup. -/
theorem has_name (flags : List (String × Int)) (bf : Int) (fr : Bool)
    {name : String} {v : Int} (hn : jsIsNaNStr name = true)
    (hl : flags.lookup name = some v) :
    BitField.has flags ⟨some bf, fr⟩ (.str name) =
      .ok (decide (Int.land bf v = v)) := by
  simp [BitField.has, BitField.resolve, hn, hl]

/-- Characterization of the materialized iterator on an instance with a
defined bitfield: it returns, in declaration order, the names whose looked
up value is masked in. -/
theorem iterGo_spec (flags : List (String × Int)) (bf : Int) (fr : Bool) :
    ∀ l : List (String × Int),
      (∀ e ∈ l, jsIsNaNStr e.1 = true ∧ flags.lookup e.1 = some e.2) →
      BitField.iterGo flags ⟨some bf, fr⟩ l =
        .ok ((l.filter fun e => Int.land bf e.2 == e.2).map Prod.fst) := by
  intro l hl
  induction l with
  | nil => rfl
  | cons e rest ih =>
    obtain ⟨hn, hlook⟩ := hl e (List.mem_cons_self e rest)
    have hrest := fun x hx => hl x (List.mem_cons_of_mem e hx)
    by_cases hd : Int.land bf e.2 = e.2
    · simp [BitField.iterGo, hn, has_name flags bf fr hn hlook, hd, ih hrest,
        List.filter_cons]
    · simp [BitField.iterGo, hn, has_name flags bf fr hn hlook, hd, ih hrest,
        List.filter_cons]

/-- In a registry whose values are pairwise distinct, the entries whose
value equals that of a member `x` are exactly `[x]`. -/
theorem filter_val_unique :
    ∀ (l : List (String × Int)) (x : String × Int), x ∈ l →
      (l.map Prod.snd).Nodup → (l.filter fun e => e.2 == x.2) = [x] := by
  intro l
  induction l with
  | nil => intro x hx; exact absurd hx (List.not_mem_nil x)
  | cons h t ih =>
    intro x hx hnd
    rw [List.map_cons, List.nodup_cons] at hnd
    rcases List.mem_cons.mp hx with rfl | hxt
    · have : ∀ e ∈ t, ¬(e.2 == x.2) = true := by
        intro e het hcontra
        exact hnd.1 (by
          rw [beq_iff_eq] at hcontra
          exact hcontra ▸ List.mem_map_of_mem Prod.snd het)
      simp [List.filter_cons, List.filter_eq_nil_iff.mpr this]
    · have hne : ¬(h.2 == x.2) = true := by
        intro hcontra
        rw [beq_iff_eq] at hcontra
        exact hnd.1 (hcontra ▸ List.mem_map_of_mem Prod.snd hxt)
      simp [List.filter_cons, hne, ih x hxt hnd.2]

/-- The permission override with `checkAdmin = false` is the generic
membership test. -/
theorem permHas_false (flags : List (String × Int)) (A : Int) (b : BitField)
    (perm : JSVal) :
    PermissionsBitField.has flags A b perm false = BitField.has flags b perm := rfl

/-- The permission iterator with the short-circuit disabled is the generic
iterator, segment by segment. -/
theorem permIterGo_false (flags : List (String × Int)) (A : Int) (b : BitField) :
    ∀ l, PermissionsBitField.iterGo flags A b false l = BitField.iterGo flags b l := by
  intro l
  induction l with
  | nil => rfl
  | cons e rest ih =>
    simp only [PermissionsBitField.iterGo, BitField.iterGo, permHas_false, ih]

/-- Theorem: `PermissionsBitField.toArray` coincides with the generic enumeration:
the overridden `toArray` forwards `checkAdmin = false` to every membership
test of the iteration, which turns the override into the generic `has`. -/
theorem PermissionsBitField.toArray_eq_generic (flags : List (String × Int))
    (A : Int) (b : BitField) :
    PermissionsBitField.toArray flags A b = BitField.toArray flags b :=
  permIterGo_false flags A b flags

end ResolveHelpers

section DecimalHelpers

theorem digitChar_isDigit {d : Nat} (hd : d < 10) : (digitChar d).isDigit = true := by
  interval_cases d <;> decide

theorem digitChar_val {d : Nat} (hd : d < 10) : decDigVal (digitChar d) = d := by
  interval_cases d <;> decide

theorem digitChar_not_white {d : Nat} (hd : d < 10) :
    jsWhite (digitChar d) = false := by
  interval_cases d <;> decide

theorem digitChar_nes {d : Nat} (hd : d < 10) :
    digitChar d ≠ '+' ∧ digitChar d ≠ '-' := by
  interval_cases d <;> exact ⟨by decide, by decide⟩

theorem digitChar_ne_zeroChar {d : Nat} (hd : d < 10) (h0 : d ≠ 0) :
    digitChar d ≠ '0' := by
  interval_cases d
  · exact absurd rfl h0
  all_goals decide

theorem dropWhile_not (p : Char → Bool) :
    ∀ l : List Char, (∀ c ∈ l, p c = false) → l.dropWhile p = l := by
  intro l hl
  cases l with
  | nil => rfl
  | cons c r => simp [List.dropWhile_cons, hl c (List.mem_cons_self c r)]

theorem trimWs_not_white {l : List Char} (hl : ∀ c ∈ l, jsWhite c = false) :
    trimWs l = l := by
  unfold trimWs
  rw [dropWhile_not jsWhite l hl,
    dropWhile_not jsWhite l.reverse (fun c hc => hl c (List.mem_reverse.mp hc)),
    List.reverse_reverse]

theorem takeWhile_all_eq (p : Char → Bool) :
    ∀ l : List Char, (∀ c ∈ l, p c = true) → l.takeWhile p = l := by
  intro l
  induction l with
  | nil => intro _; rfl
  | cons c r ih =>
    intro hl
    simp [List.takeWhile_cons, hl c (List.mem_cons_self c r),
      ih fun x hx => hl x (List.mem_cons_of_mem c hx)]

theorem dropWhile_all_eq (p : Char → Bool) :
    ∀ l : List Char, (∀ c ∈ l, p c = true) → l.dropWhile p = [] := by
  intro l
  induction l with
  | nil => intro _; rfl
  | cons c r ih =>
    intro hl
    simp [List.dropWhile_cons, hl c (List.mem_cons_self c r),
      ih fun x hx => hl x (List.mem_cons_of_mem c hx)]

theorem radixGo_digits :
    ∀ (L : List Nat), (∀ d ∈ L, d < 10) → ∀ acc,
      radixGo 10 Char.isDigit decDigVal acc (L.map digitChar) =
        some (L.foldl (fun a d => a * 10 + d) acc) := by
  intro L
  induction L with
  | nil => intro _ acc; rfl
  | cons d L ih =>
    intro hL acc
    have hd := hL d (List.mem_cons_self d L)
    simp only [List.map_cons, radixGo, digitChar_isDigit hd, if_pos,
      digitChar_val hd, List.foldl_cons]
    exact ih (fun x hx => hL x (List.mem_cons_of_mem d hx)) _

theorem foldr_ofDigits :
    ∀ L : List Nat, L.foldr (fun d a => a * 10 + d) 0 = Nat.ofDigits 10 L := by
  intro L
  induction L with
  | nil => rfl
  | cons d L ih =>
    rw [List.foldr_cons, ih, Nat.ofDigits_cons]
    ring

theorem foldl_reverse_digits (n : Nat) :
    (Nat.digits 10 n).reverse.foldl (fun a d => a * 10 + d) 0 = n := by
  rw [List.foldl_reverse]
  calc (Nat.digits 10 n).foldr (fun d a => a * 10 + d) 0
      = Nat.ofDigits 10 (Nat.digits 10 n) := foldr_ofDigits _
    _ = n := Nat.ofDigits_digits 10 n

theorem digits_rev_lt (n : Nat) :
    ∀ d ∈ (Nat.digits 10 n).reverse, d < 10 := fun d hd =>
  Nat.digits_lt_base (by norm_num) (List.mem_reverse.mp hd)

theorem natDecimalGo_eq :
    ∀ (fuel n : Nat), n ≤ fuel → ∀ acc,
      natDecimalGo fuel n acc = (Nat.digits 10 n).reverse.map digitChar ++ acc := by
  intro fuel
  induction fuel with
  | zero =>
    intro n hn acc
    interval_cases n
    simp [natDecimalGo, Nat.digits_zero]
  | succ fuel ih =>
    intro n hn acc
    by_cases h0 : n = 0
    · subst h0; simp [natDecimalGo, Nat.digits_zero]
    · have hpos : 0 < n := Nat.pos_of_ne_zero h0
      have hdiv : n / 10 ≤ fuel :=
        Nat.le_of_lt_succ (Nat.lt_of_lt_of_le (Nat.div_lt_self hpos (by norm_num)) hn)
      simp only [natDecimalGo, h0, if_neg, ite_false]
      rw [ih (n / 10) hdiv, Nat.digits_def' (show 1 < 10 by norm_num) hpos]
      simp [List.reverse_cons, List.map_append, List.append_assoc]

theorem natDecimal_toList {n : Nat} (hn : n ≠ 0) :
    (natDecimal n).toList = ((Nat.digits 10 n).reverse.map digitChar) := by
  unfold natDecimal
  rw [if_neg hn]
  show natDecimalGo n n [] = _
  rw [natDecimalGo_eq n n (Nat.le_refl n), List.append_nil]

theorem decVal_digits {n : Nat} (hn : n ≠ 0) :
    decVal ((Nat.digits 10 n).reverse.map digitChar) = some n := by
  have hne : (Nat.digits 10 n).reverse.map digitChar ≠ [] := by
    simp [Nat.digits_ne_nil_iff_ne_zero.mpr hn]
  unfold decVal radixVal
  rw [if_neg (by simpa [List.isEmpty_iff] using hne)]
  rw [radixGo_digits _ (digits_rev_lt n) 0, foldl_reverse_digits]

theorem mem_map_digitChar {L : List Nat} (h : ∀ x ∈ L, x < 10) :
    ∀ c ∈ L.map digitChar, c.isDigit = true ∧ jsWhite c = false := by
  intro c hc
  obtain ⟨x, hx, rfl⟩ := List.mem_map.mp hc
  exact ⟨digitChar_isDigit (h x hx), digitChar_not_white (h x hx)⟩

theorem natDecimal_head_struct {n : Nat} (hn : n ≠ 0) :
    ∃ d dt, (Nat.digits 10 n).reverse = d :: dt ∧ d < 10 ∧ d ≠ 0 ∧
      ∀ x ∈ d :: dt, x < 10 := by
  have hne : (Nat.digits 10 n).reverse ≠ [] := by
    simp [Nat.digits_ne_nil_iff_ne_zero.mpr hn]
  obtain ⟨d, dt, hrev⟩ := List.exists_cons_of_ne_nil hne
  have hmem : ∀ x ∈ d :: dt, x < 10 := by
    intro x hx
    exact digits_rev_lt n x (hrev ▸ hx)
  have hdig : Nat.digits 10 n = dt.reverse ++ [d] := by
    have := congrArg List.reverse hrev
    simpa using this
  have hlast := Nat.getLast_digit_ne_zero 10 hn
  have hd0 : d ≠ 0 := by
    have hgl : (Nat.digits 10 n).getLast (Nat.digits_ne_nil_iff_ne_zero.mpr hn) = d := by
      rw [List.getLast_congr _ _ hdig]
      all_goals simp [List.getLast_append]
    exact hgl ▸ hlast
  exact ⟨d, dt, hrev, hmem d (List.mem_cons_self d dt), hd0, hmem⟩

theorem jsBigIntOfStr_natDecimal (n : Nat) :
    jsBigIntOfStr (natDecimal n) = some (n : Int) := by
  by_cases h0 : n = 0
  · subst h0; rfl
  · obtain ⟨d, dt, hrev, hd10, hd0, hmem⟩ := natDecimal_head_struct h0
    have hlist : (natDecimal n).toList = (d :: dt).map digitChar := by
      rw [natDecimal_toList h0, hrev]
    have htrim : trimWs ((natDecimal n).toList) = (d :: dt).map digitChar := by
      rw [hlist]
      exact trimWs_not_white fun c hc => (mem_map_digitChar hmem c hc).2
    have hdec : decVal ((d :: dt).map digitChar) = some n := by
      rw [← hrev]
      exact decVal_digits h0
    unfold jsBigIntOfStr
    rw [htrim, List.map_cons]
    simp only [if_neg (digitChar_nes hd10).1, if_neg (digitChar_nes hd10).2,
      if_neg (digitChar_ne_zeroChar hd10 hd0)]
    rw [← List.map_cons, hdec]
    rfl

theorem jsIsNaNStr_natDecimal (n : Nat) : jsIsNaNStr (natDecimal n) = false := by
  by_cases h0 : n = 0
  · subst h0; rfl
  · obtain ⟨d, dt, hrev, hd10, hd0, hmem⟩ := natDecimal_head_struct h0
    have hlist : (natDecimal n).toList = (d :: dt).map digitChar := by
      rw [natDecimal_toList h0, hrev]
    have htrim : trimWs ((natDecimal n).toList) = (d :: dt).map digitChar := by
      rw [hlist]
      exact trimWs_not_white fun c hc => (mem_map_digitChar hmem c hc).2
    have hdigs : ∀ c ∈ (d :: dt).map digitChar, Char.isDigit c = true :=
      fun c hc => (mem_map_digitChar hmem c hc).1
    have hdec : recUnsignedDec ((d :: dt).map digitChar) = true := by
      unfold recUnsignedDec
      rw [takeWhile_all_eq Char.isDigit _ hdigs, dropWhile_all_eq Char.isDigit _ hdigs]
      simp
    suffices h : jsNumericStr (natDecimal n) = true by
      simp [jsIsNaNStr, h]
    unfold jsNumericStr
    rw [htrim, List.map_cons]
    have hpm : (digitChar d = '+' || digitChar d = '-') = false := by
      simp [(digitChar_nes hd10).1, (digitChar_nes hd10).2]
    simp only [hpm, Bool.false_eq_true, if_false, if_neg]
    have : recDecOrInf (digitChar d :: dt.map digitChar) = true := by
      unfold recDecOrInf
      rw [← List.map_cons, hdec]
      simp
    rw [← List.map_cons] at this ⊢
    rw [this, Bool.or_true]

end DecimalHelpers

section RegistryHelpers

theorem beq_natCast (a b : Nat) : ((a : Int) == (b : Int)) = (a == b) := by
  by_cases h : a = b
  · simp [h]
  · have hc : (a : Int) ≠ (b : Int) := fun hcast => h (Int.natCast_inj.mp hcast)
    simp [h, hc]

theorem nat_beq_ldiff_pow2 (mv mb k : Nat) :
    ((Nat.ldiff mv mb &&& 2 ^ k) == 2 ^ k) =
      (((mv &&& 2 ^ k) == 2 ^ k) && !((mb &&& 2 ^ k) == 2 ^ k)) := by
  rw [Bool.eq_iff_iff]
  simp only [beq_iff_eq, Bool.and_eq_true, Bool.not_eq_true', beq_eq_false_iff_ne,
    ne_eq]
  rw [nat_ldiff_pow2]

theorem nat_beq_pow2_pow2 (k j : Nat) :
    ((2 ^ k &&& 2 ^ j : Nat) == 2 ^ j) = ((2 ^ j : Nat) == 2 ^ k) := by
  rw [Bool.eq_iff_iff]
  simp only [beq_iff_eq]
  rw [nat_pow2_land_pow2]
  exact ⟨fun h => by rw [h], fun h => Nat.pow_right_injective (Nat.le_refl 2) h⟩

/-- The modelled permission registry is well formed. -/
theorem permFlags_wf : RegWF permFlags := by
  refine ⟨by decide, by decide, by decide, ?_, by decide⟩
  intro e he
  fin_cases he
  · exact ⟨0, rfl⟩
  · exact ⟨1, rfl⟩
  · exact ⟨2, rfl⟩
  · exact ⟨3, rfl⟩
  · exact ⟨4, rfl⟩
  · exact ⟨5, rfl⟩
  · exact ⟨6, rfl⟩
  · exact ⟨7, rfl⟩
  · exact ⟨8, rfl⟩
  · exact ⟨9, rfl⟩
  · exact ⟨10, rfl⟩
  · exact ⟨11, rfl⟩
  · exact ⟨22, rfl⟩
  · exact ⟨24, rfl⟩

end RegistryHelpers

section MoreHelpers

theorem nat_land_self (n : ℕ) : n &&& n = n := by
  refine Nat.eq_of_testBit_eq fun i => ?_
  simp [Nat.testBit_land]

theorem pow2_cast (k : Nat) : ((2 : Int) ^ k) = (((2 ^ k : Nat)) : Int) := by
  push_cast
  ring

end MoreHelpers

/-- C10: a bigint input whose runtime kind matches the engine's canonical
kind but whose value is below the zero/default value falls through every
resolution case and yields `undefined` — it is neither returned unchanged
nor clamped. -/
theorem c10_negative_bigint_unresolvable (flags : List (String × Int))
    (n : Int) (h : n < 0) : BitField.resolve flags (.bigI n) = .ok none := by
  simp [BitField.resolve, not_le.mpr h]

theorem c10_witness :
    (-1 : Int) < 0 ∧ BitField.resolve permFlags (.bigI (-1)) = .ok none :=
  ⟨by decide, c10_negative_bigint_unresolvable permFlags (-1) (by decide)⟩

/-- C5: resolving a three-element sequence of well-formed resolvables is
the bitwise OR of the individual resolutions, and the empty sequence
resolves to the zero value. -/
theorem c5_union_law (flags : List (String × Int)) (a b c : JSVal)
    (va vb vc : Int)
    (ha : BitField.resolve flags a = .ok (some va))
    (hb : BitField.resolve flags b = .ok (some vb))
    (hc : BitField.resolve flags c = .ok (some vc)) :
    BitField.resolve flags (.arr [a, b, c]) =
      .ok (some (Int.lor (Int.lor va vb) vc)) ∧
    BitField.resolve flags (.arr []) = .ok (some 0) := by
  refine ⟨?_, rfl⟩
  have hall : BitField.resolveAll flags [a, b, c] =
      .ok [some va, some vb, some vc] := by
    simp [BitField.resolveAll, ha, hb, hc]
  have hred : BitField.orReduce 0 [some va, some vb, some vc] =
      .ok (Int.lor (Int.lor (Int.lor 0 va) vb) vc) := rfl
  simp [BitField.resolve, hall, hred, int_zero_lor]

theorem c5_witness :
    BitField.resolve permFlags (.str "ViewChannel") = .ok (some 1024) ∧
    BitField.resolve permFlags (.arr [.str "ViewChannel", .bigI 2048, .str "8"]) =
      .ok (some (Int.lor (Int.lor 1024 2048) 8)) ∧
    BitField.resolve permFlags (.arr []) = .ok (some 0) := by
  have h := c5_union_law permFlags (.str "ViewChannel") (.bigI 2048) (.str "8")
    1024 2048 8 rfl rfl rfl
  exact ⟨rfl, h.1, h.2⟩

/-- C4: after `freeze`, `add` leaves the receiver untouched and returns a
newly allocated instance carrying the union, on which the added flag tests
true; `freeze` itself marks the receiver immutable in place and returns the
receiver (modelled: the returned state is the receiver's own state with the
frozen mark set, not a copy with different contents; distinctness of the
instance returned by `add` is the `fresh` flag). -/
theorem c4_copy_on_write (flags : List (String × Int)) (b : BitField)
    (f : JSVal) (bf n : Int) (hb : b.bitfield = some bf) (hbf : 0 ≤ bf)
    (hn : 0 ≤ n) (hf : BitField.resolve flags f = .ok (some n)) :
    BitField.freeze b = { b with frozen := true } ∧
    BitField.add flags (BitField.freeze b) [f] =
      .ok ⟨BitField.freeze b, ⟨some (Int.lor bf n), false⟩, true⟩ ∧
    (BitField.freeze b).bitfield = b.bitfield ∧
    BitField.has flags ⟨some (Int.lor bf n), false⟩ f = .ok true := by
  obtain ⟨mb, rfl⟩ := Int.eq_ofNat_of_zero_le hbf
  obtain ⟨mn, rfl⟩ := Int.eq_ofNat_of_zero_le hn
  refine ⟨rfl, ?_, rfl, ?_⟩
  · have htot : BitField.orTotal flags 0 [f] = .ok (Int.lor 0 ↑mn) := by
      simp [BitField.orTotal, hf]
    have hnonneg : (0 : Int) ≤ Int.lor ↑mb ↑mn := by
      rw [int_lor_coe]
      exact Int.natCast_nonneg _
    have hnew : BitField.new flags (.bigI (Int.lor ↑mb ↑mn)) =
        .ok ⟨some (Int.lor ↑mb ↑mn), false⟩ := by
      simp [BitField.new, BitField.resolve, hnonneg]
    simp [BitField.add, htot, int_zero_lor, BitField.freeze, hb, hnew]
  · have hmask : Int.land (Int.lor ↑mb ↑mn) ↑mn = ↑mn := by
      rw [int_lor_coe, int_land_coe, nat_lor_land_self]
    simp [BitField.has, hf, hmask]

theorem c4_witness :
    BitField.freeze ⟨some 1024, false⟩ = ⟨some 1024, true⟩ ∧
    BitField.add permFlags (BitField.freeze ⟨some 1024, false⟩)
        [.str "SendMessages"] =
      .ok ⟨BitField.freeze ⟨some 1024, false⟩,
           ⟨some (Int.lor 1024 2048), false⟩, true⟩ ∧
    (BitField.freeze ⟨some 1024, false⟩).bitfield = some 1024 ∧
    BitField.has permFlags ⟨some (Int.lor 1024 2048), false⟩
        (.str "SendMessages") = .ok true :=
  c4_copy_on_write permFlags ⟨some 1024, false⟩ (.str "SendMessages") 1024 2048
    rfl (by decide) (by decide) rfl

/-- C7: `has` is exactly the masking test `(bitfield & resolved) = resolved`
on any resolvable bit, and consequently an instance constructed from a
registry flag has that flag while the zero instance does not. -/
theorem c7_has_masking (flags : List (String × Int)) :
    (∀ (bf : Int) (fr : Bool) (bit : JSVal) (n : Int),
        BitField.resolve flags bit = .ok (some n) →
        BitField.has flags ⟨some bf, fr⟩ bit = .ok (decide (Int.land bf n = n))) ∧
    (∀ (name : String) (v : Int), RegWF flags → (name, v) ∈ flags →
        BitField.new flags (.str name) = .ok ⟨some v, false⟩ ∧
        BitField.has flags ⟨some v, false⟩ (.str name) = .ok true ∧
        BitField.has flags ⟨some 0, false⟩ (.str name) = .ok false) := by
  constructor
  · intro bf fr bit n hres
    simp [BitField.has, hres]
  · intro name v hw hmem
    have hn : jsIsNaNStr name = true := hw.names_nonnum (name, v) hmem
    have hl : flags.lookup name = some v := hw.lookup_self (name, v) hmem
    obtain ⟨k, hk⟩ : ∃ k : Nat, v = 2 ^ k := hw.vals_pow2 (name, v) hmem
    have hres : BitField.resolve flags (.str name) = .ok (some v) := by
      simp [BitField.resolve, hn, hl]
    refine ⟨by simp [BitField.new, hres], ?_, ?_⟩
    · have hself : Int.land v v = v := by
        subst hk
        rw [pow2_cast, int_land_coe, nat_land_self]
      simp [BitField.has, hres, hself]
    · have hzero : Int.land 0 v ≠ v := by
        subst hk
        rw [pow2_cast,
          show (0 : Int) = ((0 : Nat) : Int) from rfl, int_land_coe, nat_zero_land]
        intro hcon
        have h0 : (0 : Nat) = 2 ^ k := Int.natCast_inj.mp hcon
        exact absurd h0.symm (Nat.pos_iff_ne_zero.mp (pow_pos (by norm_num) k))
      simp [BitField.has, hres, hzero]

theorem c7_witness :
    BitField.resolve permFlags (.bigI 3) = .ok (some 3) ∧
    BitField.has permFlags ⟨some 1024, false⟩ (.bigI 3) =
      .ok (decide (Int.land 1024 3 = 3)) ∧
    BitField.new permFlags (.str "ViewChannel") = .ok ⟨some 1024, false⟩ ∧
    BitField.has permFlags ⟨some 1024, false⟩ (.str "ViewChannel") = .ok true ∧
    BitField.has permFlags ⟨some 0, false⟩ (.str "ViewChannel") = .ok false := by
  have h := c7_has_masking permFlags
  have h2 := h.2 "ViewChannel" 1024 permFlags_wf (by decide)
  exact ⟨rfl, h.1 1024 false (.bigI 3) 3 rfl, h2.1, h2.2.1, h2.2.2⟩

/-- C2 counterexample: the empty string is neither a string of only digits
nor a registry name, so the algorithm as specified fails on it; the code's
`!isNaN` guard accepts it (`Number("")` is `0`, not `NaN`) and `BigInt("")`
is `0n`, so `resolve` returns `0`. -/
theorem c2_counterexample :
    resolveSpec permFlags (.str "") = none ∧
    BitField.resolve permFlags (.str "") = .ok (some 0) := ⟨rfl, rfl⟩

/-- C2 (amended): the resolution cases in order, with case (4) widened to
the host numeric-string test — any string `ToNumber` accepts (the empty or
all-whitespace string parsing to zero, optionally signed decimals, radix
prefixed and `Infinity` forms) is handed to the `BigInt` constructor, which
raises an error on the numeric-but-not-integral forms; only a string the
numeric test rejects is looked up in the registry, and inputs matching no
case (including canonical-kind integers below zero) resolve to nothing. -/
theorem c2_resolve_cases (flags : List (String × Int)) :
    (∀ n : Int, 0 ≤ n → BitField.resolve flags (.bigI n) = .ok (some n)) ∧
    (∀ b, BitField.resolve flags (.inst b) = .ok b) ∧
    (∀ (xs : List JSVal) (vs : List Int),
        List.Forall₂ (fun x v => BitField.resolve flags x = .ok (some v)) xs vs →
        BitField.resolve flags (.arr xs) = .ok (some (vs.foldl Int.lor 0))) ∧
    (∀ s, jsIsNaNStr s = false →
        BitField.resolve flags (.str s) =
          (match jsBigIntOfStr s with
           | some n => Except.ok (some n)
           | none => Except.error ())) ∧
    (∀ s, jsIsNaNStr s = true →
        BitField.resolve flags (.str s) =
          (match flags.lookup s with
           | some v => Except.ok (some v)
           | none => Except.ok none)) ∧
    (∀ n : Int, n < 0 → BitField.resolve flags (.bigI n) = .ok none) ∧
    (∀ n : Int, BitField.resolve flags (.numI n) = .ok none) ∧
    BitField.resolve flags .other = .ok none := by
  refine ⟨?_, fun b => rfl, ?_, ?_, ?_, ?_, fun n => rfl, rfl⟩
  · intro n hn
    simp [BitField.resolve, hn]
  · intro xs vs h
    have hall := resolveAll_forall2 flags h
    simp [BitField.resolve, hall, orReduce_somes]
  · intro s hs
    simp [BitField.resolve, hs]
  · intro s hs
    simp [BitField.resolve, hs]
  · intro n hn
    simp [BitField.resolve, not_le.mpr hn]

theorem c2_witness :
    BitField.resolve permFlags (.bigI 9) = .ok (some 9) ∧
    BitField.resolve permFlags (.arr [.bigI 1, .bigI 2]) =
      .ok (some ([1, 2].foldl Int.lor 0)) ∧
    BitField.resolve permFlags (.str "12") =
      (match jsBigIntOfStr "12" with
       | some n => Except.ok (some n)
       | none => Except.error ()) ∧
    BitField.resolve permFlags (.str "Administrator") =
      (match permFlags.lookup "Administrator" with
       | some v => Except.ok (some v)
       | none => Except.ok none) := by
  have h := c2_resolve_cases permFlags
  exact ⟨h.1 9 (by decide),
    h.2.2.1 [.bigI 1, .bigI 2] [1, 2]
      (List.Forall₂.cons rfl (List.Forall₂.cons rfl List.Forall₂.nil)),
    h.2.2.2.1 "12" (by decide),
    h.2.2.2.2.1 "Administrator" (by decide)⟩

/-- C3 counterexample: on the deployed bigint engine an unresolvable
element makes `add`/`remove` (and sequence resolution) raise a `TypeError`
instead of completing with the element silently dropped — `0n | undefined`
is not `0n` but a thrown error.  `resolve` itself does return the absent
result without raising. -/
theorem c3_counterexample :
    BitField.resolve permFlags (.str "NotAFlag") = .ok none ∧
    BitField.add permFlags ⟨some 8, false⟩ [.str "NotAFlag"] = .error () ∧
    BitField.remove permFlags ⟨some 8, false⟩ [.str "NotAFlag"] = .error () ∧
    BitField.resolve permFlags (.arr [.str "NotAFlag"]) = .error () :=
  ⟨rfl, rfl, rfl, rfl⟩

/-- C3 (amended): `resolve` yields an absent result (not an error) for an
unresolvable non-sequence input, but every bigint-engine caller that folds
resolve results with bitwise OR — `add`, `remove` and sequence resolution —
raises a `TypeError` on the absent result, so a call containing a single
bad element fails as a whole rather than silently contributing nothing. -/
theorem c3_absence_raises (flags : List (String × Int)) (b : BitField)
    (bad : JSVal) (hbad : BitField.resolve flags bad = .ok none) :
    BitField.resolve flags .other = .ok none ∧
    (∀ (pre : List JSVal) (vs : List Int) (post : List JSVal),
        List.Forall₂ (fun x v => BitField.resolve flags x = .ok (some v)) pre vs →
        BitField.add flags b (pre ++ bad :: post) = .error () ∧
        BitField.remove flags b (pre ++ bad :: post) = .error ()) ∧
    BitField.resolve flags (.arr [bad]) = .error () := by
  refine ⟨rfl, ?_, ?_⟩
  · intro pre vs post hpre
    have htot := orTotal_bad flags hpre hbad post 0
    exact ⟨by simp [BitField.add, htot], by simp [BitField.remove, htot]⟩
  · simp [BitField.resolve, BitField.resolveAll, hbad, BitField.orReduce]

theorem c3_witness :
    BitField.resolve permFlags (.str "NotAFlag") = .ok none ∧
    BitField.add permFlags ⟨some 8, false⟩
      ([.str "ViewChannel"] ++ .str "NotAFlag" :: []) = .error () ∧
    BitField.remove permFlags ⟨some 8, false⟩
      ([.str "ViewChannel"] ++ .str "NotAFlag" :: []) = .error () := by
  have h := c3_absence_raises permFlags ⟨some 8, false⟩ (.str "NotAFlag") rfl
  have h2 := h.2.1 [.str "ViewChannel"] [1024] []
    (List.Forall₂.cons rfl List.Forall₂.nil)
  exact ⟨rfl, h2.1, h2.2⟩

/-- C6: the generic `missing(bits)` — a temporary instance constructed from
`bits`, the receiver's bits removed, the remainder enumerated — returns
exactly the registry names whose bits occur in the resolved `bits` but are
not set in the receiver's bitfield, in declaration order. -/
theorem c6_missing_exact (flags : List (String × Int)) (hw : RegWF flags)
    (bf v : Int) (fr : Bool) (hbf : 0 ≤ bf) (hv : 0 ≤ v) (bits : JSVal)
    (hbits : BitField.resolve flags bits = .ok (some v)) :
    BitField.missing flags ⟨some bf, fr⟩ bits =
      .ok ((flags.filter fun e =>
        (Int.land v e.2 == e.2) && !(Int.land bf e.2 == e.2)).map Prod.fst) := by
  obtain ⟨mb, rfl⟩ := Int.eq_ofNat_of_zero_le hbf
  obtain ⟨mv, rfl⟩ := Int.eq_ofNat_of_zero_le hv
  have hnew : BitField.new flags bits = .ok ⟨some ↑mv, false⟩ := by
    simp [BitField.new, hbits]
  have htot : BitField.orTotal flags 0 [.inst (some (↑mb : Int))] =
      .ok (Int.lor 0 ↑mb) := by
    simp [BitField.orTotal, BitField.resolve]
  have hrem : BitField.remove flags ⟨some ↑mv, false⟩ [.inst (some (↑mb : Int))] =
      .ok ⟨⟨some (Int.land ↑mv (Int.lnot ↑mb)), false⟩,
           ⟨some (Int.land ↑mv (Int.lnot ↑mb)), false⟩, false⟩ := by
    simp [BitField.remove, htot, int_zero_lor]
  have harr : BitField.toArray flags ⟨some (Int.land ↑mv (Int.lnot ↑mb)), false⟩ =
      .ok ((flags.filter fun e =>
        Int.land ((Nat.ldiff mv mb : Nat) : Int) e.2 == e.2).map Prod.fst) := by
    rw [int_ldiff_coe]
    exact iterGo_spec flags ((Nat.ldiff mv mb : Nat) : Int) false flags
      (fun e he => ⟨hw.names_nonnum e he, hw.lookup_self e he⟩)
  have hmiss : BitField.missing flags ⟨some ↑mb, fr⟩ bits =
      .ok ((flags.filter fun e =>
        Int.land ((Nat.ldiff mv mb : Nat) : Int) e.2 == e.2).map Prod.fst) := by
    simp [BitField.missing, hnew, hrem, harr]
  rw [hmiss]
  have hfil : (flags.filter fun e =>
      Int.land ((Nat.ldiff mv mb : Nat) : Int) e.2 == e.2) =
      (flags.filter fun e =>
        (Int.land ↑mv e.2 == e.2) && !(Int.land ↑mb e.2 == e.2)) := by
    apply List.filter_congr
    intro e he
    obtain ⟨k, hk⟩ := hw.vals_pow2 e he
    rw [hk, pow2_cast, int_land_coe, int_land_coe, int_land_coe,
      beq_natCast, beq_natCast, beq_natCast, nat_beq_ldiff_pow2]
  rw [hfil]

theorem c6_witness :
    BitField.missing permFlags ⟨some 1024, false⟩
      (.arr [.str "ViewChannel", .str "SendMessages"]) = .ok ["SendMessages"] := by
  have h := c6_missing_exact permFlags permFlags_wf 1024 3072 false (by decide)
    (by decide) (.arr [.str "ViewChannel", .str "SendMessages"]) rfl
  rw [h]
  rfl

/-- C1: for an instance holding exactly the administrator bit, the
overridden `has` (default `checkAdmin`) answers true for every input, the
overridden `missing` answers the empty sequence for every input, yet
`toArray` lists exactly the administrator flag's name and no other. -/
theorem c1_admin_asymmetry (flags : List (String × Int)) (A : Int) (fr : Bool)
    (hw : RegWF flags) (hA : ("Administrator", A) ∈ flags) :
    (∀ f : JSVal, PermissionsBitField.has flags A ⟨some A, fr⟩ f true = .ok true) ∧
    (∀ bits : JSVal,
        PermissionsBitField.missing flags A ⟨some A, fr⟩ bits true = .ok []) ∧
    PermissionsBitField.toArray flags A ⟨some A, fr⟩ = .ok ["Administrator"] := by
  obtain ⟨k, hk⟩ : ∃ k : Nat, A = 2 ^ k := hw.vals_pow2 ("Administrator", A) hA
  have hpos : (0 : Int) ≤ A := by
    rw [hk, pow2_cast]
    exact Int.natCast_nonneg _
  have hself : Int.land A A = A := by
    rw [hk, pow2_cast, int_land_coe, nat_land_self]
  have hadmin : BitField.has flags ⟨some A, fr⟩ (.bigI A) = .ok true := by
    simp [BitField.has, BitField.resolve, hpos, hself]
  have hhas : ∀ f : JSVal,
      PermissionsBitField.has flags A ⟨some A, fr⟩ f true = .ok true := by
    intro f
    simp [PermissionsBitField.has, hadmin]
  refine ⟨hhas, ?_, ?_⟩
  · intro bits
    simp [PermissionsBitField.missing, hhas (.bigI A)]
  · rw [PermissionsBitField.toArray_eq_generic]
    rw [show BitField.toArray flags ⟨some A, fr⟩ = _ from
      iterGo_spec flags A fr flags
        (fun e he => ⟨hw.names_nonnum e he, hw.lookup_self e he⟩)]
    have hcong : (flags.filter fun e => Int.land A e.2 == e.2) =
        (flags.filter fun e => e.2 == A) := by
      apply List.filter_congr
      intro e he
      obtain ⟨j, hj⟩ := hw.vals_pow2 e he
      rw [hj, hk, pow2_cast, pow2_cast, int_land_coe, beq_natCast, beq_natCast,
        nat_beq_pow2_pow2]
    rw [hcong, filter_val_unique flags ("Administrator", A) hA hw.vals_nodup]
    rfl

theorem c1_witness :
    PermissionsBitField.has permFlags 8 ⟨some 8, false⟩
      (.str "SendMessages") true = .ok true ∧
    PermissionsBitField.missing permFlags 8 ⟨some 8, false⟩
      (.arr [.str "ViewChannel", .str "SendMessages"]) true = .ok [] ∧
    PermissionsBitField.toArray permFlags 8 ⟨some 8, false⟩ =
      .ok ["Administrator"] := by
  have h := c1_admin_asymmetry permFlags 8 false permFlags_wf (by decide)
  exact ⟨h.1 _, h.2.1 _, h.2.2⟩

/-- C8 counterexample: the wrapped value `8n` fits the native numeric
representation, yet `toJSON` returns the decimal string, not the raw
integer — the branch keys on the value's runtime kind (always bigint in
this engine), not on its range. -/
theorem c8_counterexample :
    BitField.toJSON ⟨some 8, false⟩ = .ok (.str "8") ∧
    fitsNative 8 = true ∧
    BitField.toJSON ⟨some 8, false⟩ ≠ .ok (.num 8) := by
  refine ⟨rfl, rfl, ?_⟩
  intro hcon
  simp [BitField.toJSON] at hcon

/-- C8 (amended): on the bigint engine `toJSON` always returns the decimal
string form of the wrapped value — even when the value fits the native
numeric range — and never the raw native integer; the string is canonical
in that the engine's own string conversion parses it back to the value. -/
theorem c8_tojson_bigint_string (n : Int) (fr : Bool) (h : 0 ≤ n) :
    BitField.toJSON ⟨some n, fr⟩ = .ok (.str (intDecimal n)) ∧
    (∀ m : Int, BitField.toJSON ⟨some n, fr⟩ ≠ .ok (.num m)) ∧
    jsBigIntOfStr (intDecimal n) = some n := by
  refine ⟨rfl, ?_, ?_⟩
  · intro m hcon
    simp [BitField.toJSON] at hcon
  · rw [intDecimal, if_neg (not_lt.mpr h), jsBigIntOfStr_natDecimal,
      Int.natAbs_of_nonneg h]

theorem c8_witness :
    (0 : Int) ≤ 8 ∧
    BitField.toJSON ⟨some 8, false⟩ = .ok (.str (intDecimal 8)) ∧
    jsBigIntOfStr (intDecimal 8) = some 8 := by
  have h := c8_tojson_bigint_string 8 false (by decide)
  exact ⟨by decide, h.1, h.2.2⟩

/-- C9: reconstructing an instance from the `toJSON` output reproduces the
original raw bitfield, for native-range values and beyond. -/
theorem c9_tojson_roundtrip (flags : List (String × Int)) (n : Int)
    (fr : Bool) (h : 0 ≤ n) :
    BitField.toJSON ⟨some n, fr⟩ = .ok (.str (intDecimal n)) ∧
    BitField.new flags (.str (intDecimal n)) = .ok ⟨some n, false⟩ := by
  refine ⟨rfl, ?_⟩
  have hstr : intDecimal n = natDecimal n.natAbs := by
    rw [intDecimal, if_neg (not_lt.mpr h)]
  have hnan : jsIsNaNStr (intDecimal n) = false := by
    rw [hstr]
    exact jsIsNaNStr_natDecimal n.natAbs
  have hbig : jsBigIntOfStr (intDecimal n) = some n := by
    rw [hstr, jsBigIntOfStr_natDecimal, Int.natAbs_of_nonneg h]
  simp [BitField.new, BitField.resolve, hnan, hbig]

theorem c9_witness :
    (fitsNative 8 = true ∧
      BitField.toJSON ⟨some 8, false⟩ = .ok (.str (intDecimal 8)) ∧
      BitField.new permFlags (.str (intDecimal 8)) = .ok ⟨some 8, false⟩) ∧
    (fitsNative (2 ^ 60) = false ∧
      BitField.toJSON ⟨some (2 ^ 60), false⟩ = .ok (.str (intDecimal (2 ^ 60))) ∧
      BitField.new permFlags (.str (intDecimal (2 ^ 60))) =
        .ok ⟨some (2 ^ 60), false⟩) := by
  have h1 := c9_tojson_roundtrip permFlags 8 false (by decide)
  have h2 := c9_tojson_roundtrip permFlags (2 ^ 60) false (by positivity)
  exact ⟨⟨rfl, h1.1, h1.2⟩, ⟨by decide, h2.1, h2.2⟩⟩
